import Mathlib

/-!
# Verification of the res2df/ecl2df completion-record compiler (`compdat`)

The repository converts a chronologically ordered stream of well-completion
configuration records (DATES, TSTEP, WELSPECS, COMPDAT, WELOPEN, ...) into
flat tables, and back.  The stateful record-stream compiler (`compdat.py`,
whose behaviour is pinned down by the specification and by
`tests/test_compdat.py`) is embedded here as executable Lean definitions:
a date clock, a well registry for default resolution, a range expander,
an append-only completion store with status propagation, the table
finalizer, and the inverse serializer.
-/

/-!
## Helper lemmas
-/

/-- A calendar date, represented by its proleptic-Gregorian day number
(days counted from 0000-03-01, Hinnant's civil-calendar algorithm).
Total order and day arithmetic are inherited from `Nat`. -/
structure SimDate where
  rd : Nat
deriving DecidableEq, Repr

/-- Modelled from the spec: `SimDate` construction from a calendar
`(year, month, day)` triple, valid for years ≥ 1 (all dates appearing in
the repository's decks).  Standard days-from-civil computation. -/
def SimDate.ofYMD (y m d : Nat) : SimDate :=
  let y' := if m ≤ 2 then y - 1 else y
  let era := y' / 400
  let yoe := y' % 400
  let mp := (m + 9) % 12
  let doy := (153 * mp + 2) / 5 + (d - 1)
  let doe := yoe * 365 + yoe / 4 - yoe / 100 + doy
  ⟨era * 146097 + doe⟩

/-- Advance a date by a (whole) number of days.  The spec allows fractional
elapsed-time steps; every scenario fixed by the claims uses whole days. -/
def SimDate.addDays (d : SimDate) (n : Nat) : SimDate :=
  ⟨d.rd + n⟩

/-- Modelled from the spec: the record stream produced by the external deck
parser, restricted to the record kinds the completion compiler interprets.
`compdat` location fields are `Option Nat`: `none` is the explicit wildcard
sentinel (`1*`); a present value of `0` is also treated as defaulted. -/
inductive Record where
  | dates (d : SimDate)
  | tstep (steps : List Nat)
  | welspecs (well : String) (i j : Nat)
  | compdat (well : String) (iField jField : Option Nat) (k1 k2 : Nat)
      (status : String)
  | welopen (pattern : String) (status : String)
deriving DecidableEq, Repr

/-- Modelled from the spec: one completion row of the output table
(`WELL`, `I`, `J`, `K1`, `K2`, `OP/SH`, `DATE` columns); `date = none` is
the undated (null) marker. -/
structure CompletionRow where
  well : String
  i : Nat
  j : Nat
  k1 : Nat
  k2 : Nat
  status : String
  date : Option SimDate
deriving DecidableEq, Repr

/-- Modelled from the spec: the typed fatal errors of the conversion
(`§7`), each surfaced to the Python caller as a `ValueError`. -/
inductive ConvError where
  | missingDefault (well : String) (fieldName : String)
  | unknownWell (pattern : String)
  | dateOrder
deriving DecidableEq, Repr

/-- Modelled from the spec: recognized configuration options of
`deck2dfs` (`unroll_ranges`, default true, and the optional `start_date`). -/
structure Config where
  unroll : Bool
  startDate : Option SimDate
deriving DecidableEq, Repr

/-- The default configuration: ranges unrolled, no start date. -/
def defaultConfig : Config := ⟨true, none⟩

/-- Modelled from the spec: the explicit context structure threaded through
stream processing — the date clock (undated = `none`), the well registry
(most recent `WELSPECS` entry per well; newest entries are consed in front
so lookup finds the most recent), and the append-only completion store in
stream order. -/
structure ConvState where
  clock : Option SimDate
  registry : List (String × Nat × Nat)
  rows : List CompletionRow
deriving DecidableEq, Repr

/-- The initial conversion state: undated clock, empty registry, no rows. -/
def initState : ConvState := ⟨none, [], []⟩

/-- Outcome of processing one record: a new state, a typed fatal error, or
the undated-elapsed-time abort that makes the whole conversion return the
empty table mapping (a critical condition, not a raised error). -/
inductive Outcome where
  | ok (s : ConvState)
  | fatal (e : ConvError)
  | emptyAbort
deriving DecidableEq, Repr

/-- A location field is defaulted when it is the wildcard sentinel (`1*`,
i.e. `none`) or the integer zero. -/
def isDefaulted : Option Nat → Bool
  | none => true
  | some v => v == 0

/-- Registry lookup: the most recently declared reference location of a
well, if any (`WELSPECS` entries are consed newest-first). -/
def regLookup (reg : List (String × Nat × Nat)) (w : String) :
    Option (Nat × Nat) :=
  match reg.find? (fun e => e.1 == w) with
  | some e => some e.2
  | none => none

/-- First-seen-order deduplication (the order `pandas.unique` uses). -/
def firstSeen {α : Type} [DecidableEq α] : List α → List α
  | [] => []
  | a :: rest => a :: (firstSeen rest).filter (fun b => b ≠ a)

/-- Modelled from the spec: the Range Expander's integer interval,
normalized to ascending order — one integer per element of the closed
interval `[min a b, max a b]`, ascending regardless of source order. -/
def unrollRange (a b : Nat) : List Nat :=
  List.range' (min a b) (max a b + 1 - min a b)

/-- Modelled from the spec: the rows a single completion record contributes;
with unrolling enabled, one row per layer in the normalized `K1`–`K2`
interval (both layer fields set to the single value); otherwise the single
unexpanded row with the raw interval retained. -/
def expandRows (cfg : Config) (w : String) (i j k1 k2 : Nat) (st : String)
    (date : Option SimDate) : List CompletionRow :=
  if cfg.unroll then
    (unrollRange k1 k2).map (fun k => ⟨w, i, j, k, k, st, date⟩)
  else [⟨w, i, j, k1, k2, st, date⟩]

/-- Modelled from the spec: normalization of a status-change record's status
value — `POPN` (re-open previously open connections) is recorded as `OPEN`,
as required by the end-to-end scenario of spec §8 (2 distinct statuses). -/
def normStatus (st : String) : String :=
  if st = "POPN" then "OPEN" else st

/-- Glob matching for well-name patterns: `*` matches any character
sequence, `?` any single character, other characters literally. -/
def globMatch : List Char → List Char → Bool
  | [], [] => true
  | [], _ :: _ => false
  | '*' :: ps, [] => globMatch ps []
  | '*' :: ps, c :: cs => globMatch ps (c :: cs) || globMatch ('*' :: ps) cs
  | '?' :: _, [] => false
  | '?' :: ps, _ :: cs => globMatch ps cs
  | _ :: _, [] => false
  | p :: ps, c :: cs => p = c && globMatch ps cs
termination_by ps cs => (ps.length, cs.length)

/-- Modelled from the spec: resolution of a status-change record's well
pattern — an exact match, or, when the pattern contains a wildcard, a glob
match against registered well names. -/
def wellMatch (pat w : String) : Bool :=
  if pat.toList.any (fun c => c = '*' || c = '?') then
    globMatch pat.toList w.toList
  else pat == w

/-- The well names appearing in the store, in first-seen order. -/
def wellsOf (rows : List CompletionRow) : List String :=
  firstSeen (rows.map (fun r => r.well))

/-- The connection identity of a completion row (spatial identity within a
well): grid block and layer interval. -/
def connIdent (r : CompletionRow) : Nat × Nat × Nat × Nat :=
  (r.i, r.j, r.k1, r.k2)

/-- The most recent row in `rows` with connection identity `id`. -/
def lastRowFor (rows : List CompletionRow) (id : Nat × Nat × Nat × Nat) :
    Option CompletionRow :=
  (rows.filter (fun r => connIdent r = id)).getLast?

/-- Modelled from the spec: the live rows of a well — for each connection
identity seen for the well (first-seen order), the most recent row with
that identity. -/
def liveRows (rows : List CompletionRow) (w : String) : List CompletionRow :=
  let wr := rows.filter (fun r => r.well = w)
  (firstSeen (wr.map connIdent)).filterMap (fun id => lastRowFor wr id)

/-- Modelled from the spec: the rows emitted by a status-change record —
for each matched well, a copy of each live row with only `status` and
`date` overwritten. -/
def statusChangeRows (rows : List CompletionRow) (ws : List String)
    (st : String) (date : Option SimDate) : List CompletionRow :=
  ws.flatMap (fun w =>
    (liveRows rows w).map (fun r => { r with status := st, date := date }))

/-- Modelled from the spec: the state-transition function of the
record-stream compiler (`deck2dfs`'s per-record step), one case per record
kind:
* an absolute-date record sets the clock (backward jumps are fatal);
* an elapsed-time record adds the sum of its steps to the clock, and is a
  critical abort (empty result) while the clock is undated;
* a well-location record overwrites the registry entry for its well;
* a completion record resolves defaulted location fields against the
  registry (fatal `MissingDefaultError` when no declaration precedes),
  expands its layer range, and appends the rows stamped with the clock;
* a status-change record re-emits every live row of every matched well
  with the (normalized) new status at the current date, and is fatal
  (`UnknownWellError`) when no completed well matches. -/
def processRecord (cfg : Config) (s : ConvState) : Record → Outcome
  | .dates d =>
    match s.clock with
    | some c => if d.rd < c.rd then .fatal .dateOrder
                else .ok { s with clock := some d }
    | none => .ok { s with clock := some d }
  | .tstep steps =>
    match s.clock with
    | none => .emptyAbort
    | some c => .ok { s with clock := some (c.addDays steps.sum) }
  | .welspecs w i j => .ok { s with registry := (w, i, j) :: s.registry }
  | .compdat w iF jF k1 k2 st =>
    match isDefaulted iF, regLookup s.registry w with
    | true, none => .fatal (.missingDefault w "I")
    | true, some (ri, rj) =>
      if isDefaulted jF then
        .ok { s with rows :=
          s.rows ++ expandRows cfg w ri rj k1 k2 st s.clock }
      else
        .ok { s with rows :=
          s.rows ++ expandRows cfg w ri (jF.getD 0) k1 k2 st s.clock }
    | false, reg =>
      if isDefaulted jF then
        match reg with
        | none => .fatal (.missingDefault w "J")
        | some (_, rj) =>
          .ok { s with rows :=
            s.rows ++ expandRows cfg w (iF.getD 0) rj k1 k2 st s.clock }
      else
        .ok { s with rows :=
          s.rows ++ expandRows cfg w (iF.getD 0) (jF.getD 0) k1 k2 st s.clock }
  | .welopen pat st =>
    let ws := (wellsOf s.rows).filter (fun w => wellMatch pat w)
    if ws.isEmpty then .fatal (.unknownWell pat)
    else .ok { s with rows :=
      s.rows ++ statusChangeRows s.rows ws (normStatus st) s.clock }

/-- Fold the state-transition function over a record stream, propagating
fatal errors and the empty-result abort. -/
def runRecords (cfg : Config) (s : ConvState) : List Record → Outcome
  | [] => .ok s
  | r :: rest =>
    match processRecord cfg s r with
    | .ok s' => runRecords cfg s' rest
    | .fatal e => .fatal e
    | .emptyAbort => .emptyAbort

/-- The key under which completion rows are unique in the final table:
well, spatial identity and date. -/
def rowKey (r : CompletionRow) : String × Nat × Nat × Nat × Nat × Option SimDate :=
  (r.well, r.i, r.j, r.k1, r.k2, r.date)

/-- Keep, for each `rowKey`, only the last row carrying it (the pandas
`drop_duplicates(keep=last)` step of table finalization). -/
def dropDupKeys : List CompletionRow → List CompletionRow
  | [] => []
  | r :: rest =>
    if rest.any (fun r2 => rowKey r2 = rowKey r) then dropDupKeys rest
    else r :: dropDupKeys rest

/-- Assign the configured start date to undated rows (used only for
presentation; dated rows are untouched). -/
def applyStartDate (cfg : Config) (rows : List CompletionRow) :
    List CompletionRow :=
  rows.map (fun r =>
    match r.date with
    | none => { r with date := cfg.startDate }
    | some d => { r with date := some d })

/-- Modelled from the spec: table finalization — deduplicate rows by
identity-and-date keeping the most recent, assign the start date to
undated rows, and omit the table entirely when empty. -/
def finalize (cfg : Config) (s : ConvState) :
    List (String × List CompletionRow) :=
  let rows := applyStartDate cfg (dropDupKeys s.rows)
  if rows.isEmpty then [] else [("COMPDAT", rows)]

/-- Modelled from the spec: `compdat.deck2dfs` — convert a record stream
into the mapping from record type to table.  A typed fatal error aborts
the whole conversion (no partial tables); an elapsed-time record observed
while the clock is undated yields the empty mapping. -/
def deck2dfs (deck : List Record) (cfg : Config) :
    Except ConvError (List (String × List CompletionRow)) :=
  match runRecords cfg initState deck with
  | .ok s => .ok (finalize cfg s)
  | .fatal e => .error e
  | .emptyAbort => .ok []

/-- Render one completion row back into a completion record (the textual
fixed-column rendering and its faithful re-parse are collapsed into the
abstract record, the deck parser being an external collaborator). -/
def rowToRecord (r : CompletionRow) : Record :=
  .compdat r.well (some r.i) (some r.j) r.k1 r.k2 r.status

/-- The distinct dates of a table's rows, in first-seen order. -/
def datesOf (rows : List CompletionRow) : List (Option SimDate) :=
  firstSeen (rows.map (fun r => r.date))

/-- Modelled from the spec: the inverse serializer's grouping of table rows
by date, preserving first-seen date order. -/
def groupByDate (rows : List CompletionRow) :
    List (Option SimDate × List CompletionRow) :=
  (datesOf rows).map (fun d => (d, rows.filter (fun r => r.date = d)))

/-- Modelled from the spec: the time-control record emitted before a group.
`prev = none` marks the first group (absolute date record); between
back-to-back dated groups, contiguous dates (exactly one day apart) yield
an elapsed-time record whose value is the day difference, non-contiguous
dates an absolute-date record.  An undated group gets no time record. -/
def timeRec : Option (Option SimDate) → Option SimDate → List Record
  | _, none => []
  | none, some d => [.dates d]
  | some none, some d => [.dates d]
  | some (some p), some d =>
    if d.rd = p.rd + 1 then [.tstep [d.rd - p.rd]] else [.dates d]

/-- Serialize date groups in order: before each group its time-control
record, then one completion record per row of the group. -/
def serializeGroups (prev : Option (Option SimDate)) :
    List (Option SimDate × List CompletionRow) → List Record
  | [] => []
  | (d, rs) :: rest =>
    timeRec prev d ++ rs.map rowToRecord ++ serializeGroups (some d) rest

/-- Modelled from the spec: `compdat.df2ecl_compdat` — re-serialize a
completion table into a record stream, grouped by date with minimal
time-control records between groups. -/
def df2ecl_compdat (rows : List CompletionRow) : List Record :=
  serializeGroups none (groupByDate rows)

/-- Numeric encoding of an optional date: the undated marker is below every
real date, and real dates compare by day number. -/
def dateVal : Option SimDate → Nat
  | none => 0
  | some d => d.rd + 1

/-- The most recent well-location declaration for `w` in a record stream
(later records win), as a recursive function of the stream itself. -/
def mostRecentDecl (w : String) : List Record → Option (Nat × Nat)
  | [] => none
  | .welspecs w' i j :: rest =>
    match mostRecentDecl w rest with
    | some p => some p
    | none => if w' == w then some (i, j) else none
  | _ :: rest => mostRecentDecl w rest

/-- Is this record a well-location declaration for `w`? -/
def isWelspecsFor (w : String) : Record → Bool
  | .welspecs w' _ _ => w' == w
  | _ => false

/-- Is this a time-control record (one that can move the date clock)? -/
def isTimeControl : Record → Bool
  | .dates _ => true
  | .tstep _ => true
  | _ => false

/-- The conversion-state invariant behind the round-trip property: every
stored row is dated no later than the clock, rows are in non-decreasing
date order, and (with unrolling enabled) every row has a degenerate layer
interval. -/
def storeInv (cfg : Config) (s : ConvState) : Prop :=
  (∀ r ∈ s.rows, dateVal r.date ≤ dateVal s.clock) ∧
  s.rows.Pairwise (fun a b => dateVal a.date ≤ dateVal b.date) ∧
  (cfg.unroll = true → ∀ r ∈ s.rows, r.k1 = r.k2)

/-- The deck of `test_tstep`: DATES 1 MAY 2001, a completion, TSTEP 1, a
completion, TSTEP 2 3, a completion. -/
def tstepDeck : List Record :=
  [Record.dates (SimDate.ofYMD 2001 5 1),
   Record.compdat "OP1" (some 33) (some 110) 31 31 "OPEN",
   Record.tstep [1],
   Record.compdat "OP1" (some 34) (some 111) 32 32 "OPEN",
   Record.tstep [2, 3],
   Record.compdat "OP1" (some 35) (some 111) 33 33 "SHUT"]

/-- The deck of `test_applywelopen_stringdeck`: completions for `OP1` and
`OP2` interleaved with status changes (`SHUT`, `OPEN`, `POPN`, `SHUT`)
and time steps. -/
def welopenDeck : List Record :=
  [Record.dates (SimDate.ofYMD 2001 5 1),
   Record.compdat "OP1" (some 33) (some 110) 31 31 "OPEN",
   Record.welopen "OP1" "SHUT",
   Record.tstep [1],
   Record.compdat "OP2" (some 66) (some 110) 31 31 "OPEN",
   Record.welopen "OP1" "OPEN",
   Record.tstep [2, 3],
   Record.welopen "OP1" "POPN",
   Record.welopen "OP2" "SHUT"]

/-- The deck of `test_str2df` (restricted to the embedded record kinds): a
well-location declaration and one completion record, no time-control
records at all. -/
def noDatesDeck : List Record :=
  [Record.welspecs "OP1" 41 125,
   Record.compdat "OP1" (some 33) (some 110) 31 31 "OPEN"]

/-- The invariant of serialized date groups relative to a clock value `v`:
each group is dated, with strictly increasing dates starting above `v`,
and each group's rows are stamped with the group date, have explicit
locations and a degenerate layer interval. -/
def groupsGood : Nat → List (Option SimDate × List CompletionRow) → Prop
  | _, [] => True
  | v, (d, rs) :: rest =>
      d ≠ none ∧ v < dateVal d ∧
      (∀ r ∈ rs, r.date = d ∧ r.i ≠ 0 ∧ r.j ≠ 0 ∧ r.k1 = r.k2) ∧
      groupsGood (dateVal d) rest

theorem dateVal_inj : ∀ {a b : Option SimDate}, dateVal a = dateVal b → a = b
  | none, none, _ => rfl
  | some ⟨_⟩, some ⟨_⟩, h => by
    simp only [dateVal, Nat.add_right_cancel_iff] at h
    subst h
    rfl
  | none, some ⟨y⟩, h => by simp [dateVal] at h
  | some ⟨x⟩, none, h => by simp [dateVal] at h

theorem mem_firstSeen {α : Type} [DecidableEq α] {a : α} :
    ∀ {l : List α}, a ∈ firstSeen l ↔ a ∈ l
  | [] => Iff.rfl
  | b :: rest => by
    simp only [firstSeen, List.mem_cons, List.mem_filter, decide_eq_true_eq,
      ne_eq]
    constructor
    · rintro (h | ⟨h, _⟩)
      · exact Or.inl h
      · exact Or.inr (mem_firstSeen.mp h)
    · rintro (h | h)
      · exact Or.inl h
      · by_cases hab : a = b
        · exact Or.inl hab
        · exact Or.inr ⟨mem_firstSeen.mpr h, hab⟩

theorem firstSeen_sublist {α : Type} [DecidableEq α] :
    ∀ (l : List α), List.Sublist (firstSeen l) l
  | [] => List.Sublist.refl []
  | b :: rest => by
    simp only [firstSeen]
    exact ((List.filter_sublist _).trans (firstSeen_sublist rest)).cons₂ b

theorem firstSeen_nodup {α : Type} [DecidableEq α] :
    ∀ (l : List α), (firstSeen l).Nodup
  | [] => List.nodup_nil
  | b :: rest => by
    simp only [firstSeen]
    refine List.Nodup.cons ?_ ((firstSeen_nodup rest).filter _)
    intro hmem
    have := (List.mem_filter.mp hmem).2
    simp at this

theorem runRecords_append (cfg : Config) (s : ConvState)
    (l1 l2 : List Record) :
    runRecords cfg s (l1 ++ l2) =
      match runRecords cfg s l1 with
      | .ok s' => runRecords cfg s' l2
      | .fatal e => .fatal e
      | .emptyAbort => .emptyAbort := by
  induction l1 generalizing s with
  | nil => simp [runRecords]
  | cons r rest ih =>
    simp only [List.cons_append, runRecords]
    cases processRecord cfg s r <;> simp [ih]

theorem mostRecentDecl_filter (w : String) :
    ∀ l : List Record,
      mostRecentDecl w l = mostRecentDecl w (l.filter (isWelspecsFor w)) := by
  intro l
  induction l with
  | nil => rfl
  | cons r rest ih =>
    cases r with
    | welspecs w' i j =>
      by_cases hw : w' == w
      · simp only [List.filter_cons, isWelspecsFor, hw, if_pos,
          mostRecentDecl, ih]
      · rw [List.filter_cons]
        simp only [isWelspecsFor, hw, Bool.false_eq_true, if_false]
        rw [← ih]
        simp only [mostRecentDecl]
        cases h' : mostRecentDecl w rest <;> simp [hw]
    | dates d => simpa [mostRecentDecl, List.filter_cons, isWelspecsFor] using ih
    | tstep steps => simpa [mostRecentDecl, List.filter_cons, isWelspecsFor] using ih
    | compdat a b c d e f => simpa [mostRecentDecl, List.filter_cons, isWelspecsFor] using ih
    | welopen a b => simpa [mostRecentDecl, List.filter_cons, isWelspecsFor] using ih

theorem mostRecentDecl_of_no_decl (w : String) :
    ∀ l : List Record, (∀ i j, Record.welspecs w i j ∉ l) →
      mostRecentDecl w l = none := by
  intro l
  induction l with
  | nil => intro _; rfl
  | cons r rest ih =>
    intro h
    have hrest : ∀ i j, Record.welspecs w i j ∉ rest := by
      intro i j hmem
      exact h i j (List.mem_cons_of_mem _ hmem)
    cases r with
    | welspecs w' i j =>
      have hw : (w' == w) = false := by
        by_contra hc
        have : w' = w := by
          have := Bool.of_not_eq_false hc
          exact eq_of_beq this
        subst this
        exact h i j (List.mem_cons_self _ _)
      simp [mostRecentDecl, ih hrest, hw]
    | dates d => simpa [mostRecentDecl] using ih hrest
    | tstep steps => simpa [mostRecentDecl] using ih hrest
    | compdat a b c d e f => simpa [mostRecentDecl] using ih hrest
    | welopen a b => simpa [mostRecentDecl] using ih hrest

theorem mem_expandRows {cfg : Config} {w : String} {i j k1 k2 : Nat}
    {st : String} {d : Option SimDate} {x : CompletionRow}
    (h : x ∈ expandRows cfg w i j k1 k2 st d) :
    x.well = w ∧ x.i = i ∧ x.j = j ∧ x.status = st ∧ x.date = d ∧
      (cfg.unroll = true → x.k1 = x.k2) := by
  unfold expandRows at h
  by_cases hu : cfg.unroll
  · rw [if_pos hu] at h
    obtain ⟨k, _, hk⟩ := List.mem_map.mp h
    subst hk
    simp
  · rw [if_neg hu] at h
    simp only [List.mem_singleton] at h
    subst h
    exact ⟨rfl, rfl, rfl, rfl, rfl, fun hc => absurd hc hu⟩

theorem mem_liveRows {rows : List CompletionRow} {w : String}
    {r : CompletionRow} (h : r ∈ liveRows rows w) :
    r ∈ rows ∧ r.well = w := by
  unfold liveRows at h
  obtain ⟨id, _, hlast⟩ := List.mem_filterMap.mp h
  unfold lastRowFor at hlast
  have hmem := List.mem_of_mem_getLast? hlast
  have h2 := List.mem_filter.mp hmem
  refine ⟨(List.mem_filter.mp h2.1).1, ?_⟩
  have h3 := (List.mem_filter.mp h2.1).2
  simpa using h3

theorem mem_statusChangeRows {rows : List CompletionRow} {ws : List String}
    {st : String} {d : Option SimDate} {x : CompletionRow}
    (h : x ∈ statusChangeRows rows ws st d) :
    ∃ y ∈ rows, x = { y with status := st, date := d } := by
  unfold statusChangeRows at h
  obtain ⟨w, _, hx⟩ := List.mem_flatMap.mp h
  obtain ⟨y, hy, hxy⟩ := List.mem_map.mp hx
  exact ⟨y, (mem_liveRows hy).1, hxy.symm⟩

theorem processRecord_ok_registry {cfg : Config} {s : ConvState} {r : Record}
    {s' : ConvState} (h : processRecord cfg s r = .ok s') :
    s'.registry = match r with
      | .welspecs w i j => (w, i, j) :: s.registry
      | _ => s.registry := by
  obtain ⟨clk, reg, rows⟩ := s
  cases r <;> cases clk <;> simp only [processRecord] at h <;>
    repeat' split at h
  all_goals (try cases h) <;> rfl

theorem processRecord_ok_clockMono {cfg : Config} {s : ConvState} {r : Record}
    {s' : ConvState} (h : processRecord cfg s r = .ok s') :
    dateVal s.clock ≤ dateVal s'.clock := by
  obtain ⟨clk, reg, rows⟩ := s
  cases r <;> cases clk <;> simp only [processRecord] at h <;>
    repeat' split at h
  all_goals try cases h
  all_goals simp_all [dateVal, SimDate.addDays]

theorem processRecord_ok_clock_other {cfg : Config} {s : ConvState}
    {r : Record} {s' : ConvState} (hr : isTimeControl r = false)
    (h : processRecord cfg s r = .ok s') : s'.clock = s.clock := by
  obtain ⟨clk, reg, rows⟩ := s
  cases r <;> simp only [isTimeControl] at hr <;>
    (try exact Bool.noConfusion hr) <;>
    simp only [processRecord] at h <;> repeat' split at h
  all_goals (try cases h) <;> rfl

theorem processRecord_ok_rows {cfg : Config} {s : ConvState} {r : Record}
    {s' : ConvState} (h : processRecord cfg s r = .ok s') :
    ∃ new, s'.rows = s.rows ++ new ∧
      (∀ x ∈ new, x.date = s.clock) ∧
      (cfg.unroll = true → (∀ y ∈ s.rows, y.k1 = y.k2) →
        ∀ x ∈ new, x.k1 = x.k2) ∧
      (∀ x ∈ new, (∃ y ∈ s.rows, y.well = x.well) ∨
        ∃ iF jF k1 k2 st, r = Record.compdat x.well iF jF k1 k2 st) := by
  obtain ⟨clk, reg, rows⟩ := s
  cases r with
  | dates d =>
    refine ⟨[], ?_, by simp, by simp, by simp⟩
    cases clk <;> simp only [processRecord] at h <;> repeat' split at h
    all_goals (try cases h) <;> simp
  | tstep steps =>
    refine ⟨[], ?_, by simp, by simp, by simp⟩
    cases clk <;> simp only [processRecord] at h <;> repeat' split at h
    all_goals (try cases h) <;> simp
  | welspecs w i j =>
    refine ⟨[], ?_, by simp, by simp, by simp⟩
    simp only [processRecord] at h
    cases h
    simp
  | compdat w iF jF k1 k2 st =>
    simp only [processRecord] at h
    repeat' split at h
    all_goals try cases h
    all_goals
      exact ⟨_, rfl, fun x hx => (mem_expandRows hx).2.2.2.2.1,
        fun hu _ x hx => (mem_expandRows hx).2.2.2.2.2 hu,
        fun x hx => Or.inr ⟨iF, jF, k1, k2, st, by
          rw [(mem_expandRows hx).1]⟩⟩
  | welopen pat st =>
    simp only [processRecord] at h
    split at h
    · cases h
    · cases h
      refine ⟨_, rfl, ?_, ?_, ?_⟩
      · intro x hx
        obtain ⟨y, _, hxy⟩ := mem_statusChangeRows hx
        subst hxy
        rfl
      · intro _ hk x hx
        obtain ⟨y, hy, hxy⟩ := mem_statusChangeRows hx
        subst hxy
        exact hk y hy
      · intro x hx
        obtain ⟨y, hy, hxy⟩ := mem_statusChangeRows hx
        subst hxy
        exact Or.inl ⟨y, hy, rfl⟩

theorem regLookup_cons (w' : String) (i j : Nat)
    (reg : List (String × Nat × Nat)) (w : String) :
    regLookup ((w', i, j) :: reg) w =
      if w' == w then some (i, j) else regLookup reg w := by
  unfold regLookup
  rw [List.find?_cons]
  by_cases hw : w' == w <;> simp [hw]

theorem runRecords_ok_regLookup (cfg : Config) (w : String) :
    ∀ (l : List Record) (s s' : ConvState),
      runRecords cfg s l = .ok s' →
      regLookup s'.registry w =
        match mostRecentDecl w l with
        | some p => some p
        | none => regLookup s.registry w := by
  intro l
  induction l with
  | nil =>
    intro s s' h
    cases h
    rfl
  | cons r rest ih =>
    intro s s' h
    simp only [runRecords] at h
    cases hp : processRecord cfg s r <;> rw [hp] at h
    case fatal => cases h
    case emptyAbort => cases h
    case ok s1 =>
    have hreg := processRecord_ok_registry hp
    have hih := ih s1 s' h
    cases r with
    | welspecs w' i j =>
      simp only at hreg
      rw [hreg, regLookup_cons] at hih
      simp only [mostRecentDecl]
      cases hmr : mostRecentDecl w rest <;> rw [hmr] at hih <;>
        simp only [hih] <;> by_cases hw : w' == w <;> simp [hw]
    | dates d =>
      simp only at hreg
      rw [hreg] at hih
      simpa [mostRecentDecl] using hih
    | tstep steps =>
      simp only at hreg
      rw [hreg] at hih
      simpa [mostRecentDecl] using hih
    | compdat a b c d e f =>
      simp only at hreg
      rw [hreg] at hih
      simpa [mostRecentDecl] using hih
    | welopen a b =>
      simp only at hreg
      rw [hreg] at hih
      simpa [mostRecentDecl] using hih

theorem runRecords_noDates_clock_none (cfg : Config) :
    ∀ (l : List Record) (s s' : ConvState),
      (∀ d, Record.dates d ∉ l) → s.clock = none →
      runRecords cfg s l = .ok s' → s'.clock = none := by
  intro l
  induction l with
  | nil =>
    intro s s' _ hclk h
    cases h
    exact hclk
  | cons r rest ih =>
    intro s s' hnd hclk h
    simp only [runRecords] at h
    cases hp : processRecord cfg s r <;> rw [hp] at h
    case fatal => cases h
    case emptyAbort => cases h
    case ok s1 =>
    have hndr : ∀ d, Record.dates d ∉ rest := by
      intro d hd
      exact hnd d (List.mem_cons_of_mem _ hd)
    cases r with
    | dates d =>
      exact absurd (List.mem_cons_self (Record.dates d) rest) (hnd d)
    | tstep steps =>
      simp only [processRecord, hclk] at hp
      exact Outcome.noConfusion hp
    | welspecs a b c =>
      refine ih s1 s' hndr ?_ h
      rw [processRecord_ok_clock_other (by rfl) hp, hclk]
    | compdat a b c d e f =>
      refine ih s1 s' hndr ?_ h
      rw [processRecord_ok_clock_other (by rfl) hp, hclk]
    | welopen a b =>
      refine ih s1 s' hndr ?_ h
      rw [processRecord_ok_clock_other (by rfl) hp, hclk]

theorem runRecords_noDates_rows_undated (cfg : Config) :
    ∀ (l : List Record) (s s' : ConvState),
      (∀ d, Record.dates d ∉ l) → s.clock = none →
      (∀ r ∈ s.rows, r.date = none) →
      runRecords cfg s l = .ok s' → ∀ r ∈ s'.rows, r.date = none := by
  intro l
  induction l with
  | nil =>
    intro s s' _ _ hrows h
    cases h
    exact hrows
  | cons r rest ih =>
    intro s s' hnd hclk hrows h
    simp only [runRecords] at h
    cases hp : processRecord cfg s r <;> rw [hp] at h
    case fatal => cases h
    case emptyAbort => cases h
    case ok s1 =>
    have hndr : ∀ d, Record.dates d ∉ rest := by
      intro d hd
      exact hnd d (List.mem_cons_of_mem _ hd)
    cases r with
    | dates d =>
      exact absurd (List.mem_cons_self (Record.dates d) rest) (hnd d)
    | tstep steps =>
      simp only [processRecord, hclk] at hp
      exact Outcome.noConfusion hp
    | welspecs a b c =>
      have hclk1 : s1.clock = none := by
        rw [processRecord_ok_clock_other (by rfl) hp, hclk]
      obtain ⟨new, hr, hdates, _, _⟩ := processRecord_ok_rows hp
      refine ih s1 s' hndr hclk1 ?_ h
      rw [hr]
      intro x hx
      rcases List.mem_append.mp hx with hx | hx
      · exact hrows x hx
      · rw [hdates x hx, hclk]
    | compdat a b c d e f =>
      have hclk1 : s1.clock = none := by
        rw [processRecord_ok_clock_other (by rfl) hp, hclk]
      obtain ⟨new, hr, hdates, _, _⟩ := processRecord_ok_rows hp
      refine ih s1 s' hndr hclk1 ?_ h
      rw [hr]
      intro x hx
      rcases List.mem_append.mp hx with hx | hx
      · exact hrows x hx
      · rw [hdates x hx, hclk]
    | welopen a b =>
      have hclk1 : s1.clock = none := by
        rw [processRecord_ok_clock_other (by rfl) hp, hclk]
      obtain ⟨new, hr, hdates, _, _⟩ := processRecord_ok_rows hp
      refine ih s1 s' hndr hclk1 ?_ h
      rw [hr]
      intro x hx
      rcases List.mem_append.mp hx with hx | hx
      · exact hrows x hx
      · rw [hdates x hx, hclk]

theorem processRecord_storeInv {cfg : Config} {s s' : ConvState} {r : Record}
    (hinv : storeInv cfg s) (h : processRecord cfg s r = .ok s') :
    storeInv cfg s' := by
  obtain ⟨hb, hp, hk⟩ := hinv
  obtain ⟨new, hr, hdates, hkk, _⟩ := processRecord_ok_rows h
  have hmono := processRecord_ok_clockMono h
  refine ⟨?_, ?_, ?_⟩
  · rw [hr]
    intro x hx
    rcases List.mem_append.mp hx with hx | hx
    · exact le_trans (hb x hx) hmono
    · rw [hdates x hx]
      exact hmono
  · rw [hr]
    rw [List.pairwise_append]
    refine ⟨hp, ?_, ?_⟩
    · refine List.pairwise_of_forall_mem_list ?_
      intro a ha b hb2
      rw [hdates a ha, hdates b hb2]
    · intro a ha b hb2
      rw [hdates b hb2]
      exact hb a ha
  · intro hu x
    rw [hr]
    intro hx
    rcases List.mem_append.mp hx with hx | hx
    · exact hk hu x hx
    · exact hkk hu (hk hu) x hx

theorem runRecords_storeInv (cfg : Config) :
    ∀ (l : List Record) (s s' : ConvState),
      storeInv cfg s → runRecords cfg s l = .ok s' → storeInv cfg s' := by
  intro l
  induction l with
  | nil =>
    intro s s' hinv h
    cases h
    exact hinv
  | cons r rest ih =>
    intro s s' hinv h
    simp only [runRecords] at h
    cases hp : processRecord cfg s r <;> rw [hp] at h
    case fatal => cases h
    case emptyAbort => cases h
    case ok s1 => exact ih s1 s' (processRecord_storeInv hinv hp) h

theorem initState_storeInv (cfg : Config) : storeInv cfg initState := by
  refine ⟨?_, ?_, ?_⟩ <;> simp [initState, storeInv]

theorem runRecords_wells (cfg : Config) :
    ∀ (l : List Record) (s s' : ConvState), runRecords cfg s l = .ok s' →
      ∀ r ∈ s'.rows, (∃ y ∈ s.rows, y.well = r.well) ∨
        ∃ iF jF k1 k2 st, Record.compdat r.well iF jF k1 k2 st ∈ l := by
  intro l
  induction l with
  | nil =>
    intro s s' h r hr
    cases h
    exact Or.inl ⟨r, hr, rfl⟩
  | cons r0 rest ih =>
    intro s s' h r hr
    simp only [runRecords] at h
    cases hp : processRecord cfg s r0 <;> rw [hp] at h
    case fatal => cases h
    case emptyAbort => cases h
    case ok s1 =>
    rcases ih s1 s' h r hr with ⟨y, hy, hyw⟩ | ⟨iF, jF, k1, k2, st, hmem⟩
    · obtain ⟨new, hrows, _, _, hwells⟩ := processRecord_ok_rows hp
      rw [hrows] at hy
      rcases List.mem_append.mp hy with hy | hy
      · exact Or.inl ⟨y, hy, hyw⟩
      · rcases hwells y hy with ⟨z, hz, hzw⟩ | ⟨iF, jF, k1, k2, st, hrec⟩
        · exact Or.inl ⟨z, hz, hzw.trans hyw⟩
        · refine Or.inr ⟨iF, jF, k1, k2, st, ?_⟩
          rw [← hyw, ← hrec]
          exact List.mem_cons_self _ _
    · exact Or.inr ⟨iF, jF, k1, k2, st, List.mem_cons_of_mem _ hmem⟩

/-- C2: conversion aborts with `MissingDefaultError` (naming the defaulted
field, `I` checked first) whenever a completion record has a defaulted
location field and no well-location declaration for that well precedes it
in stream order — even when a declaration follows it — and the whole
conversion returns the typed error, never partial tables. -/
theorem C2_missing_default_aborts (cfg : Config) (pre post : List Record)
    (w : String) (iF jF : Option Nat) (k1 k2 : Nat) (st : String)
    (s : ConvState)
    (hpre : runRecords cfg initState pre = .ok s)
    (hnodecl : ∀ i j, Record.welspecs w i j ∉ pre) :
    (isDefaulted iF = true →
      deck2dfs (pre ++ Record.compdat w iF jF k1 k2 st :: post) cfg =
        .error (.missingDefault w "I")) ∧
    (isDefaulted iF = false → isDefaulted jF = true →
      deck2dfs (pre ++ Record.compdat w iF jF k1 k2 st :: post) cfg =
        .error (.missingDefault w "J")) := by
  have hreg : regLookup s.registry w = none := by
    have hb := runRecords_ok_regLookup cfg w pre initState s hpre
    rw [mostRecentDecl_of_no_decl w pre hnodecl] at hb
    simpa [initState, regLookup] using hb
  constructor
  · intro hd
    unfold deck2dfs
    rw [runRecords_append, hpre]
    simp only [runRecords]
    have hstep : processRecord cfg s (Record.compdat w iF jF k1 k2 st) =
        .fatal (.missingDefault w "I") := by
      simp only [processRecord, hd, hreg]
    rw [hstep]
  · intro hdi hdj
    unfold deck2dfs
    rw [runRecords_append, hpre]
    simp only [runRecords]
    have hstep : processRecord cfg s (Record.compdat w iF jF k1 k2 st) =
        .fatal (.missingDefault w "J") := by
      simp only [processRecord, hdi, hdj, hreg, if_pos]
    rw [hstep]

/-- Witness for C2 at the test's wrong-order deck: a completion record for
`OP1` with wildcard `I`, followed (not preceded) by the `WELSPECS`
declaration, aborts the conversion with the `I` missing-default error. -/
theorem C2_missing_default_aborts_witness :
    deck2dfs [Record.compdat "OP1" none (some 5) 10 11 "OPEN",
        Record.welspecs "OP1" 20 30] defaultConfig =
      .error (.missingDefault "OP1" "I") := by
  have h := (C2_missing_default_aborts defaultConfig []
    [Record.welspecs "OP1" 20 30] "OP1" none (some 5) 10 11 "OPEN"
    initState rfl (by intro i j hmem; simp at hmem)).1 rfl
  simpa using h

/-- C3: a completion record with defaulted location fields resolves them
to the most recent preceding well-location declaration for that well
(new declarations overwrite older ones); a non-defaulted field keeps its
literal value; and resolution is unaffected by declarations for other
wells (it only depends on the stream filtered to this well's
declarations). -/
theorem C3_default_resolution (cfg : Config) (pre : List Record)
    (w : String) (iF jF : Option Nat) (k1 k2 : Nat) (st : String)
    (s : ConvState) (i j : Nat)
    (hpre : runRecords cfg initState pre = .ok s)
    (hdecl : mostRecentDecl w pre = some (i, j)) :
    processRecord cfg s (Record.compdat w iF jF k1 k2 st) =
      .ok { s with
        rows := s.rows ++
            expandRows cfg w (if isDefaulted iF then i else iF.getD 0)
              (if isDefaulted jF then j else jF.getD 0) k1 k2 st s.clock } ∧
    mostRecentDecl w pre = mostRecentDecl w (pre.filter (isWelspecsFor w)) := by
  have hreg : regLookup s.registry w = some (i, j) := by
    have hb := runRecords_ok_regLookup cfg w pre initState s hpre
    rw [hdecl] at hb
    exact hb
  refine ⟨?_, mostRecentDecl_filter w pre⟩
  cases hdi : isDefaulted iF <;> cases hdj : isDefaulted jF <;>
    simp only [processRecord, hdi, hdj, hreg, if_pos, if_neg, if_true,
      if_false, Bool.false_eq_true]

/-- Witness for C3: with declarations for `OP2` (20, 99) and then `OP1`
(20, 30) in the stream, a completion record for `OP1` with wildcard `I`
and zero `J` resolves to `OP1`'s declaration (20, 30), unaffected by
`OP2`'s. -/
theorem C3_default_resolution_witness :
    processRecord defaultConfig
      ⟨none, [("OP1", 20, 30), ("OP2", 20, 99)], []⟩
      (Record.compdat "OP1" none (some 0) 10 11 "OPEN") =
      .ok ⟨none, [("OP1", 20, 30), ("OP2", 20, 99)],
        [⟨"OP1", 20, 30, 10, 10, "OPEN", none⟩,
         ⟨"OP1", 20, 30, 11, 11, "OPEN", none⟩]⟩ := by
  have h := (C3_default_resolution defaultConfig
    [Record.welspecs "OP2" 20 99, Record.welspecs "OP1" 20 30]
    "OP1" none (some 0) 10 11 "OPEN"
    ⟨none, [("OP1", 20, 30), ("OP2", 20, 99)], []⟩ 20 30 rfl rfl).1
  exact h

/-- C7: a status-change record whose pattern matches no well for which a
completion record has been read (in particular a pattern matching no well
at all) makes the whole conversion fail with `UnknownWellError`: a status
change can never precede the well's first completion. -/
theorem C7_unknown_well (cfg : Config) (pre post : List Record)
    (pat st : String) (s : ConvState)
    (hpre : runRecords cfg initState pre = .ok s)
    (hnomatch : ∀ w iF jF k1 k2 st',
      Record.compdat w iF jF k1 k2 st' ∈ pre → wellMatch pat w = false) :
    deck2dfs (pre ++ Record.welopen pat st :: post) cfg =
      .error (.unknownWell pat) := by
  have hflt : (wellsOf s.rows).filter (fun w => wellMatch pat w) = [] := by
    rw [List.filter_eq_nil_iff]
    intro a ha
    unfold wellsOf at ha
    have hmem := mem_firstSeen.mp ha
    obtain ⟨r, hr, hrw⟩ := List.mem_map.mp hmem
    rcases runRecords_wells cfg pre initState s hpre r hr with
      ⟨y, hy, _⟩ | ⟨iF, jF, k1, k2, st', hrec⟩
    · simp [initState] at hy
    · have hm := hnomatch r.well iF jF k1 k2 st' hrec
      rw [hrw] at hm
      simp [hm]
  unfold deck2dfs
  rw [runRecords_append, hpre]
  simp only [runRecords]
  have hstep : processRecord cfg s (Record.welopen pat st) =
      .fatal (.unknownWell pat) := by
    simp only [processRecord, hflt, List.isEmpty_nil, if_true]
  rw [hstep]

/-- Witness for C7 at the test's deck: after `OP1`'s completion, a
status-change record for the never-completed `OP2` aborts the conversion
with `UnknownWellError`. -/
theorem C7_unknown_well_witness :
    deck2dfs [Record.dates (SimDate.ofYMD 2001 5 1),
        Record.compdat "OP1" (some 33) (some 110) 31 31 "OPEN",
        Record.welopen "OP2" "SHUT"] defaultConfig =
      .error (.unknownWell "OP2") := by
  have h := C7_unknown_well defaultConfig
    [Record.dates (SimDate.ofYMD 2001 5 1),
     Record.compdat "OP1" (some 33) (some 110) 31 31 "OPEN"] []
    "OP2" "SHUT"
    ⟨some (SimDate.ofYMD 2001 5 1), [],
      [⟨"OP1", 33, 110, 31, 31, "OPEN", some (SimDate.ofYMD 2001 5 1)⟩]⟩
    rfl
    (by
      intro w iF jF k1 k2 st' hmem
      simp only [List.mem_cons, List.not_mem_nil, or_false] at hmem
      rcases hmem with hmem | hmem
      · exact absurd hmem (by simp)
      · have hw : w = "OP1" := by
          injection hmem
        subst hw
        decide)
  simpa using h

/-- C10: an elapsed-time record encountered while the date clock is still
undated (no absolute-date record appeared earlier) makes `deck2dfs`
return the empty mapping — no tables at all, regardless of any completion
records already processed or still to come. -/
theorem C10_undated_tstep_empty (cfg : Config) (pre post : List Record)
    (steps : List Nat) (s : ConvState)
    (hpre : runRecords cfg initState pre = .ok s)
    (hnd : ∀ d, Record.dates d ∉ pre) :
    deck2dfs (pre ++ Record.tstep steps :: post) cfg = .ok [] := by
  have hclk : s.clock = none :=
    runRecords_noDates_clock_none cfg pre initState s hnd rfl hpre
  unfold deck2dfs
  rw [runRecords_append, hpre]
  simp only [runRecords]
  have hstep : processRecord cfg s (Record.tstep steps) = .emptyAbort := by
    simp only [processRecord, hclk]
  rw [hstep]

/-- Witness for C10 at the test's deck: a completion for `OP1`, then a
`TSTEP` before any `DATES`, then another completion — the conversion
returns the empty mapping even though completion records were present. -/
theorem C10_undated_tstep_empty_witness :
    deck2dfs [Record.compdat "OP1" (some 33) (some 110) 31 31 "OPEN",
        Record.tstep [1],
        Record.compdat "OP1" (some 34) (some 111) 32 32 "OPEN"]
      defaultConfig = .ok [] := by
  have h := C10_undated_tstep_empty defaultConfig
    [Record.compdat "OP1" (some 33) (some 110) 31 31 "OPEN"]
    [Record.compdat "OP1" (some 34) (some 111) 32 32 "OPEN"] [1]
    ⟨none, [], [⟨"OP1", 33, 110, 31, 31, "OPEN", none⟩]⟩
    rfl
    (by intro d hmem; simp at hmem)
  simpa using h

/-- C4: range expansion yields exactly one row per integer of the
normalized closed interval, in ascending order: a degenerate interval
`[k, k]` gives exactly the unexpanded row, the interval is symmetric in
its endpoints (an inverted source interval is normalized, not rejected),
the row count is `max - min + 1`, the emitted values are strictly
ascending and are exactly the integers of `[min, max]`; concretely
`[10, 20]` and the inverted `[20, 10]` both give the eleven layers
`10..20`, and the full pipeline turns one `[10, 20]` completion record
into 11 rows. -/
theorem C4_range_expansion :
    (∀ (cfg : Config) (w : String) (i j k : Nat) (st : String)
      (d : Option SimDate), cfg.unroll = true →
      expandRows cfg w i j k k st d = [⟨w, i, j, k, k, st, d⟩]) ∧
    (∀ a b : Nat, unrollRange a b = unrollRange b a) ∧
    (∀ a b : Nat, (unrollRange a b).length = max a b + 1 - min a b) ∧
    (∀ a b : Nat, List.Pairwise (· < ·) (unrollRange a b)) ∧
    (∀ a b x : Nat, x ∈ unrollRange a b ↔ min a b ≤ x ∧ x ≤ max a b) ∧
    unrollRange 10 20 = [10, 11, 12, 13, 14, 15, 16, 17, 18, 19, 20] ∧
    unrollRange 20 10 = [10, 11, 12, 13, 14, 15, 16, 17, 18, 19, 20] ∧
    (∃ rows, deck2dfs [Record.compdat "OP1" (some 33) (some 44) 10 20 "OPEN"]
        defaultConfig = .ok [("COMPDAT", rows)] ∧ rows.length = 11 ∧
      rows.map (fun r => r.k1) = unrollRange 10 20) := by
  refine ⟨?_, ?_, ?_, ?_, ?_, by decide, by decide, ?_⟩
  · intro cfg w i j k st d hu
    simp [expandRows, hu, unrollRange]
  · intro a b
    rw [unrollRange, unrollRange, Nat.min_comm, Nat.max_comm]
  · intro a b
    simp [unrollRange]
  · intro a b
    exact List.pairwise_lt_range' ..
  · intro a b x
    rw [unrollRange, List.mem_range'_1]
    omega
  · exact ⟨_, rfl, by decide, by decide⟩

/-- Witness for C4: instantiating the degenerate-interval clause at the
default configuration and `k = 31` yields exactly the single unexpanded
row. -/
theorem C4_range_expansion_witness :
    expandRows defaultConfig "OP1" 33 110 31 31 "OPEN" none =
      [⟨"OP1", 33, 110, 31, 31, "OPEN", none⟩] :=
  C4_range_expansion.1 defaultConfig "OP1" 33 110 31 "OPEN" none rfl

/-- C6: an absolute-date record sets the clock to the given date (absent a
backward jump, which is fatal); an elapsed-time record advances the clock
by the sum of its listed day counts; every other record leaves the clock
unchanged and its produced rows are stamped with the clock's current
value; concretely, DATES 1 MAY 2001 then TSTEP 1 then TSTEP 2 3 stamps
the three completion records with 2001-05-01, 2001-05-02 and
2001-05-07. -/
theorem C6_date_clock (cfg : Config) :
    (∀ (s : ConvState) (d : SimDate),
      (∀ c, s.clock = some c → c.rd ≤ d.rd) →
      processRecord cfg s (.dates d) = .ok { s with clock := some d }) ∧
    (∀ (s : ConvState) (c : SimDate) (steps : List Nat),
      s.clock = some c →
      processRecord cfg s (.tstep steps) =
        .ok { s with clock := some (c.addDays steps.sum) }) ∧
    (∀ (s s' : ConvState) (r : Record), isTimeControl r = false →
      processRecord cfg s r = .ok s' →
      s'.clock = s.clock ∧ ∃ new, s'.rows = s.rows ++ new ∧
        ∀ x ∈ new, x.date = s.clock) ∧
    (∃ rows, deck2dfs tstepDeck defaultConfig = .ok [("COMPDAT", rows)] ∧
      rows.map (fun r => r.date) =
        [some (SimDate.ofYMD 2001 5 1), some (SimDate.ofYMD 2001 5 2),
         some (SimDate.ofYMD 2001 5 7)]) := by
  refine ⟨?_, ?_, ?_, ?_⟩
  · intro s d hle
    obtain ⟨clk, reg, rows⟩ := s
    cases clk with
    | none => rfl
    | some c =>
      have hc := hle c rfl
      simp only [processRecord]
      rw [if_neg (by omega)]
  · intro s c steps hclk
    obtain ⟨clk, reg, rows⟩ := s
    simp only at hclk
    subst hclk
    rfl
  · intro s s' r hr h
    refine ⟨processRecord_ok_clock_other hr h, ?_⟩
    obtain ⟨new, hrows, hdates, _, _⟩ := processRecord_ok_rows h
    exact ⟨new, hrows, hdates⟩
  · exact ⟨_, rfl, by decide⟩

/-- Witness for C6: instantiating the clause for absolute-date records at
the undated initial state and 2001-05-01, the elapsed-time clause at that
date with steps 2 and 3, and the stamping clause at a concrete completion
record. -/
theorem C6_date_clock_witness :
    processRecord defaultConfig initState
        (.dates (SimDate.ofYMD 2001 5 1)) =
      .ok { initState with clock := some (SimDate.ofYMD 2001 5 1) } ∧
    processRecord defaultConfig
        ⟨some (SimDate.ofYMD 2001 5 1), [], []⟩ (.tstep [2, 3]) =
      .ok ⟨some ((SimDate.ofYMD 2001 5 1).addDays 5), [], []⟩ := by
  constructor
  · exact (C6_date_clock defaultConfig).1 initState (SimDate.ofYMD 2001 5 1)
      (by intro c hc; cases hc)
  · have h := (C6_date_clock defaultConfig).2.1
      ⟨some (SimDate.ofYMD 2001 5 1), [], []⟩ (SimDate.ofYMD 2001 5 1)
      [2, 3] rfl
    exact h

theorem wellMatch_exact {pat : String}
    (h : pat.toList.any (fun c => c = '*' || c = '?') = false) (x : String) :
    wellMatch pat x = (pat == x) := by
  simp only [wellMatch, h]
  rfl

theorem filter_beq_nodup {l : List String} {w : String} (hn : l.Nodup) :
    l.filter (fun x => w == x) = if w ∈ l then [w] else [] := by
  induction l with
  | nil => simp
  | cons a rest ih =>
    rw [List.filter_cons]
    by_cases hw : w = a
    · subst hw
      have hnotin : w ∉ rest := (List.nodup_cons.mp hn).1
      have hempty : rest.filter (fun x => w == x) = [] := by
        rw [List.filter_eq_nil_iff]
        intro b hb
        intro hc
        have : w = b := by simpa using hc
        exact hnotin (this ▸ hb)
      simp [hempty]
    · have hne : (w == a) = false := by simpa using hw
      rw [hne]
      simp only [Bool.false_eq_true, if_false]
      rw [ih (List.nodup_cons.mp hn).2]
      simp [List.mem_cons, hw]

/-- C1: a status-change record for an (exactly named) well emits one new
row per live completion row of that well, copying every field of the most
recent row for the connection identity and overwriting only the status
(normalized) and the date (the clock's current value); on the test's
end-to-end stream the finalized completion table has exactly 5 rows, 2
distinct status values and 3 distinct dates. -/
theorem C1_status_change_propagation :
    (∀ (cfg : Config) (s s' : ConvState) (w st : String),
      w.toList.any (fun c => c = '*' || c = '?') = false →
      processRecord cfg s (.welopen w st) = .ok s' →
      s'.rows = s.rows ++ (liveRows s.rows w).map
        (fun r => { r with status := normStatus st, date := s.clock })) ∧
    (∃ rows, deck2dfs welopenDeck defaultConfig = .ok [("COMPDAT", rows)] ∧
      rows.length = 5 ∧
      (firstSeen (rows.map (fun r => r.status))).length = 2 ∧
      (datesOf rows).length = 3) := by
  constructor
  · intro cfg s s' w st hx h
    simp only [processRecord] at h
    have hfun : (fun x => wellMatch w x) = fun x => w == x := by
      funext x
      exact wellMatch_exact hx x
    have hnodup : (wellsOf s.rows).Nodup := firstSeen_nodup _
    rw [hfun, filter_beq_nodup hnodup] at h
    by_cases hmem : w ∈ wellsOf s.rows
    · rw [if_pos hmem] at h
      simp only [List.isEmpty_cons, Bool.false_eq_true, if_false] at h
      cases h
      simp only [statusChangeRows, List.flatMap_cons, List.flatMap_nil,
        List.append_nil]
    · rw [if_neg hmem] at h
      simp only [List.isEmpty_nil, if_true] at h
      cases h
  · exact ⟨_, rfl, by decide, by decide, by decide⟩

/-- Witness for C1: applying the propagation clause at the state holding
`OP1`'s single live completion row (dated 2001-05-01, `OPEN`) and the
status change `SHUT`: exactly one new row is appended, identical except
for status and date. -/
theorem C1_status_change_propagation_witness :
    [(⟨"OP1", 33, 110, 31, 31, "OPEN", some (SimDate.ofYMD 2001 5 1)⟩ :
        CompletionRow),
     ⟨"OP1", 33, 110, 31, 31, "SHUT", some (SimDate.ofYMD 2001 5 1)⟩] =
    [⟨"OP1", 33, 110, 31, 31, "OPEN", some (SimDate.ofYMD 2001 5 1)⟩] ++
      (liveRows
        [⟨"OP1", 33, 110, 31, 31, "OPEN", some (SimDate.ofYMD 2001 5 1)⟩]
        "OP1").map
        (fun r =>
          { r with
            status := normStatus "SHUT"
            date := some (SimDate.ofYMD 2001 5 1) }) :=
  C1_status_change_propagation.1 defaultConfig
    ⟨some (SimDate.ofYMD 2001 5 1), [],
      [⟨"OP1", 33, 110, 31, 31, "OPEN", some (SimDate.ofYMD 2001 5 1)⟩]⟩
    ⟨some (SimDate.ofYMD 2001 5 1), [],
      [⟨"OP1", 33, 110, 31, 31, "OPEN", some (SimDate.ofYMD 2001 5 1)⟩,
       ⟨"OP1", 33, 110, 31, 31, "SHUT", some (SimDate.ofYMD 2001 5 1)⟩]⟩
    "OP1" "SHUT" (by decide) rfl

theorem dropDupKeys_sublist :
    ∀ l : List CompletionRow, List.Sublist (dropDupKeys l) l := by
  intro l
  induction l with
  | nil => exact List.Sublist.refl []
  | cons r rest ih =>
    rw [dropDupKeys]
    split
    · exact ih.trans (List.sublist_cons_self r rest)
    · exact ih.cons₂ r

theorem runRecords_benign_ok (cfg : Config) :
    ∀ (deck : List Record) (s0 : ConvState),
      (∀ r ∈ deck, (∃ w i j, r = Record.welspecs w i j) ∨
        ∃ w iF jF k1 k2 st, r = Record.compdat w iF jF k1 k2 st ∧
          isDefaulted iF = false ∧ isDefaulted jF = false) →
      ∃ s, runRecords cfg s0 deck = .ok s := by
  intro deck
  induction deck with
  | nil => exact fun s0 _ => ⟨s0, rfl⟩
  | cons r rest ih =>
    intro s0 hgood
    rcases hgood r (List.mem_cons_self _ _) with
      ⟨w, i, j, hr⟩ | ⟨w, iF, jF, k1, k2, st, hr, hif, hjf⟩
    · subst hr
      obtain ⟨s, hs⟩ := ih { s0 with registry := (w, i, j) :: s0.registry }
        (fun x hx => hgood x (List.mem_cons_of_mem _ hx))
      exact ⟨s, by simp only [runRecords, processRecord]; exact hs⟩
    · subst hr
      obtain ⟨s, hs⟩ := ih
        { s0 with
          rows := s0.rows ++
              expandRows cfg w (iF.getD 0) (jF.getD 0) k1 k2 st s0.clock }
        (fun x hx => hgood x (List.mem_cons_of_mem _ hx))
      refine ⟨s, ?_⟩
      simp only [runRecords, processRecord, hif, hjf, Bool.false_eq_true,
        if_false]
      exact hs

/-- C9: the absence of time-control records is not an error: whenever such
a stream converts without a fatal error, every produced row carries the
undated (null) marker — or the configured `start_date` when one is
supplied; streams of well-location records and completion records with
explicit locations always convert without error; concretely the test's
deck yields one undated row, and the same deck with `start_date`
2000-01-01 yields that row dated 2000-01-01. -/
theorem C9_undated_rows :
    (∀ (cfg : Config) (deck : List Record) (s : ConvState),
      (∀ d, Record.dates d ∉ deck) →
      runRecords cfg initState deck = .ok s →
      deck2dfs deck cfg = .ok (finalize cfg s) ∧
        ∀ e ∈ finalize cfg s, ∀ r ∈ e.2, r.date = cfg.startDate) ∧
    (∀ (cfg : Config) (deck : List Record),
      (∀ r ∈ deck, (∃ w i j, r = Record.welspecs w i j) ∨
        ∃ w iF jF k1 k2 st, r = Record.compdat w iF jF k1 k2 st ∧
          isDefaulted iF = false ∧ isDefaulted jF = false) →
      ∃ s, runRecords cfg initState deck = .ok s) ∧
    deck2dfs noDatesDeck defaultConfig =
      .ok [("COMPDAT", [⟨"OP1", 33, 110, 31, 31, "OPEN", none⟩])] ∧
    deck2dfs noDatesDeck ⟨true, some (SimDate.ofYMD 2000 1 1)⟩ =
      .ok [("COMPDAT",
        [⟨"OP1", 33, 110, 31, 31, "OPEN", some (SimDate.ofYMD 2000 1 1)⟩])] := by
  refine ⟨?_, fun cfg deck h => runRecords_benign_ok cfg deck initState h,
    rfl, rfl⟩
  intro cfg deck s hnd hrun
  have hundated : ∀ r ∈ s.rows, r.date = none :=
    runRecords_noDates_rows_undated cfg deck initState s hnd rfl
      (by intro r hr; simp [initState] at hr) hrun
  constructor
  · unfold deck2dfs
    rw [hrun]
  · intro e he r hr
    simp only [finalize] at he
    split at he
    · simp at he
    · simp only [List.mem_singleton] at he
      subst he
      simp only at hr
      unfold applyStartDate at hr
      obtain ⟨y, hy, hyr⟩ := List.mem_map.mp hr
      have hydate : y.date = none :=
        hundated y ((dropDupKeys_sublist s.rows).mem hy)
      rw [hydate] at hyr
      rw [← hyr]

/-- Witness for C9: the first clause instantiated at the test's deck —
conversion succeeds and the finalized table's single row is undated. -/
theorem C9_undated_rows_witness :
    deck2dfs noDatesDeck defaultConfig =
      .ok (finalize defaultConfig
        ⟨none, [("OP1", 41, 125)],
          [⟨"OP1", 33, 110, 31, 31, "OPEN", none⟩]⟩) ∧
    ∀ e ∈ finalize defaultConfig
        ⟨none, [("OP1", 41, 125)],
          [⟨"OP1", 33, 110, 31, 31, "OPEN", none⟩]⟩,
      ∀ r ∈ e.2, r.date = defaultConfig.startDate :=
  C9_undated_rows.1 defaultConfig noDatesDeck
    ⟨none, [("OP1", 41, 125)], [⟨"OP1", 33, 110, 31, 31, "OPEN", none⟩]⟩
    (by intro d hmem; simp [noDatesDeck] at hmem) rfl

/-- C8: the inverse serializer groups rows by date and, before each group,
emits an absolute-date record if the group is the first, or if the
back-to-back dates are non-contiguous; between contiguous consecutive
groups it emits an elapsed-time record whose value is the day difference;
concretely a table dated 2000-01-01/3000-01-01 serializes with two
absolute-date records (matching `test_df2ecl_compdat`), while
2000-01-01/2000-01-02 serializes with an elapsed-time record of one
day. -/
theorem C8_serializer_time_records :
    (∀ (d : SimDate) (rs : List CompletionRow)
        (gs : List (Option SimDate × List CompletionRow)),
      serializeGroups none ((some d, rs) :: gs) =
        Record.dates d :: (rs.map rowToRecord ++
          serializeGroups (some (some d)) gs)) ∧
    (∀ (p d : SimDate) (rs : List CompletionRow)
        (gs : List (Option SimDate × List CompletionRow)),
      d.rd = p.rd + 1 →
      serializeGroups (some (some p)) ((some d, rs) :: gs) =
        Record.tstep [d.rd - p.rd] :: (rs.map rowToRecord ++
          serializeGroups (some (some d)) gs)) ∧
    (∀ (p d : SimDate) (rs : List CompletionRow)
        (gs : List (Option SimDate × List CompletionRow)),
      d.rd ≠ p.rd + 1 →
      serializeGroups (some (some p)) ((some d, rs) :: gs) =
        Record.dates d :: (rs.map rowToRecord ++
          serializeGroups (some (some d)) gs)) ∧
    df2ecl_compdat
        [⟨"OP1", 1, 1, 1, 1, "OPEN", some (SimDate.ofYMD 2000 1 1)⟩,
         ⟨"OP2", 1, 1, 1, 1, "OPEN", some (SimDate.ofYMD 3000 1 1)⟩] =
      [Record.dates (SimDate.ofYMD 2000 1 1),
       Record.compdat "OP1" (some 1) (some 1) 1 1 "OPEN",
       Record.dates (SimDate.ofYMD 3000 1 1),
       Record.compdat "OP2" (some 1) (some 1) 1 1 "OPEN"] ∧
    df2ecl_compdat
        [⟨"OP1", 1, 1, 1, 1, "OPEN", some (SimDate.ofYMD 2000 1 1)⟩,
         ⟨"OP2", 1, 1, 1, 1, "OPEN", some (SimDate.ofYMD 2000 1 2)⟩] =
      [Record.dates (SimDate.ofYMD 2000 1 1),
       Record.compdat "OP1" (some 1) (some 1) 1 1 "OPEN",
       Record.tstep [1],
       Record.compdat "OP2" (some 1) (some 1) 1 1 "OPEN"] := by
  refine ⟨?_, ?_, ?_, rfl, rfl⟩
  · intro d rs gs
    simp [serializeGroups, timeRec]
  · intro p d rs gs hd
    simp [serializeGroups, timeRec, hd]
  · intro p d rs gs hd
    simp [serializeGroups, timeRec, hd]

/-- Witness for C8: the contiguous-dates clause applied at day numbers 0
and 1 with a single-row group — an elapsed-time record of one day is
emitted. -/
theorem C8_serializer_time_records_witness :
    serializeGroups (some (some ⟨0⟩))
        [(some ⟨1⟩, [⟨"OP1", 1, 1, 1, 1, "OPEN", some ⟨1⟩⟩])] =
      [Record.tstep [1],
       Record.compdat "OP1" (some 1) (some 1) 1 1 "OPEN"] := by
  have h := C8_serializer_time_records.2.1 ⟨0⟩ ⟨1⟩
    [⟨"OP1", 1, 1, 1, 1, "OPEN", some ⟨1⟩⟩] [] rfl
  simpa using h

theorem dropDupKeys_keyNodup :
    ∀ l : List CompletionRow,
      (dropDupKeys l).Pairwise (fun a b => rowKey a ≠ rowKey b) := by
  intro l
  induction l with
  | nil => exact List.Pairwise.nil
  | cons r rest ih =>
    rw [dropDupKeys]
    split
    · exact ih
    · rename_i hany
      refine List.Pairwise.cons ?_ ih
      intro b hb hkey
      have hbrest : b ∈ rest := (dropDupKeys_sublist rest).mem hb
      have : rest.any (fun r2 => rowKey r2 = rowKey r) = true := by
        rw [List.any_eq_true]
        exact ⟨b, hbrest, by simp [hkey]⟩
      simp [this] at hany

theorem dropDupKeys_eq_self :
    ∀ l : List CompletionRow,
      l.Pairwise (fun a b => rowKey a ≠ rowKey b) → dropDupKeys l = l := by
  intro l
  induction l with
  | nil => intro _; rfl
  | cons r rest ih =>
    intro hp
    have hr := List.pairwise_cons.mp hp
    rw [dropDupKeys]
    have hany : rest.any (fun r2 => rowKey r2 = rowKey r) = false := by
      rw [List.any_eq_false]
      intro b hb
      simp only [decide_eq_true_eq]
      exact fun hk => hr.1 b hb hk.symm
    rw [hany]
    simp only [Bool.false_eq_true, if_false]
    rw [ih hr.2]

theorem applyStartDate_id (cfg : Config) (hsd : cfg.startDate = none) :
    ∀ l : List CompletionRow, applyStartDate cfg l = l := by
  intro l
  induction l with
  | nil => rfl
  | cons r rest ih =>
    unfold applyStartDate at ih ⊢
    rw [List.map_cons, ih]
    cases hd : r.date with
    | none => simp only [hsd, ← hd]
    | some d => simp only [← hd]

theorem gather_filter :
    ∀ rows : List CompletionRow,
      rows.Pairwise (fun a b => dateVal a.date ≤ dateVal b.date) →
      (firstSeen (rows.map (fun r => r.date))).flatMap
        (fun d => rows.filter (fun r => r.date = d)) = rows := by
  intro rows
  induction rows with
  | nil => intro _; rfl
  | cons x xs ih =>
    intro hs
    have hx := (List.pairwise_cons.mp hs).1
    have hxs := (List.pairwise_cons.mp hs).2
    rw [List.map_cons, firstSeen, List.flatMap_cons]
    have hhead : (x :: xs).filter (fun r => r.date = x.date) =
        x :: xs.filter (fun r => r.date = x.date) := by
      rw [List.filter_cons]
      simp
    rw [hhead]
    have htail : ((firstSeen (xs.map (fun r => r.date))).filter
          (fun b => b ≠ x.date)).flatMap
          (fun d => (x :: xs).filter (fun r => r.date = d)) =
        ((firstSeen (xs.map (fun r => r.date))).filter
          (fun b => b ≠ x.date)).flatMap
          (fun d => xs.filter (fun r => r.date = d)) := by
      refine List.flatMap_congr ?_
      intro d hd
      have hne : d ≠ x.date := by
        have := (List.mem_filter.mp hd).2
        simpa using this
      have hne2 : ¬ x.date = d := fun h2 => hne h2.symm
      rw [List.filter_cons]
      simp [hne2]
    rw [List.cons_append, htail]
    by_cases hmem : x.date ∈ xs.map (fun r => r.date)
    · obtain ⟨y, ys, hxs_eq⟩ : ∃ y ys, xs = y :: ys := by
        cases xs with
        | nil => simp at hmem
        | cons y ys => exact ⟨y, ys, rfl⟩
      have hyx : y.date = x.date := by
        obtain ⟨z, hz, hzd⟩ := List.mem_map.mp hmem
        have h1 : dateVal x.date ≤ dateVal y.date := by
          apply hx
          rw [hxs_eq]
          exact List.mem_cons_self _ _
        have h2 : dateVal y.date ≤ dateVal z.date := by
          rw [hxs_eq] at hz hxs
          rcases List.mem_cons.mp hz with hzy | hzy
          · rw [hzy]
          · exact (List.pairwise_cons.mp hxs).1 z hzy
        rw [hzd] at h2
        exact dateVal_inj (Nat.le_antisymm h2 h1)
      have hfs : firstSeen (xs.map (fun r => r.date)) =
          x.date :: (firstSeen (ys.map (fun r => r.date))).filter
            (fun b => b ≠ x.date) := by
        rw [hxs_eq, List.map_cons, firstSeen, hyx]
      have hLS : (firstSeen (xs.map (fun r => r.date))).filter
          (fun b => b ≠ x.date) =
          (firstSeen (ys.map (fun r => r.date))).filter
            (fun b => b ≠ x.date) := by
        rw [hfs, List.filter_cons]
        have h1 : (decide (x.date ≠ x.date)) = false := by simp
        rw [h1]
        simp only [Bool.false_eq_true, if_false]
        rw [List.filter_filter]
        simp
      have hIH := ih hxs
      rw [hfs, List.flatMap_cons] at hIH
      rw [hLS]
      exact congrArg (List.cons x) hIH
    · have hnil : xs.filter (fun r => r.date = x.date) = [] := by
        rw [List.filter_eq_nil_iff]
        intro a ha hc
        apply hmem
        rw [List.mem_map]
        exact ⟨a, ha, by simpa using hc⟩
      have hself : (firstSeen (xs.map (fun r => r.date))).filter
          (fun b => b ≠ x.date) = firstSeen (xs.map (fun r => r.date)) := by
        rw [List.filter_eq_self]
        intro d hd
        have hd2 := mem_firstSeen.mp hd
        simp only [ne_eq, decide_eq_true_eq]
        intro hc
        exact hmem (hc ▸ hd2)
      rw [hself, hnil, List.nil_append]
      exact congrArg (List.cons x) (ih hxs)

theorem runRecords_cons_ok {cfg : Config} {s s1 : ConvState} {a : Record}
    {l : List Record} (h : processRecord cfg s a = .ok s1) :
    runRecords cfg s (a :: l) = runRecords cfg s1 l := by
  simp only [runRecords, h]

theorem run_compdat_rows (cfg : Config) (hu : cfg.unroll = true) :
    ∀ (rs : List CompletionRow) (s : ConvState),
      (∀ r ∈ rs, r.date = s.clock ∧ r.i ≠ 0 ∧ r.j ≠ 0 ∧ r.k1 = r.k2) →
      runRecords cfg s (rs.map rowToRecord) =
        .ok { s with rows := s.rows ++ rs } := by
  intro rs
  induction rs with
  | nil =>
    intro s _
    simp only [List.map_nil, runRecords, List.append_nil]
  | cons r rest ih =>
    intro s hprops
    obtain ⟨hdate, hi, hj, hk⟩ := hprops r (List.mem_cons_self _ _)
    rw [List.map_cons]
    have hstep : processRecord cfg s (rowToRecord r) =
        .ok { s with rows := s.rows ++ [r] } := by
      obtain ⟨w', i', j', k1', k2', st', d'⟩ := r
      simp only at hdate hi hj hk
      subst hk
      subst hdate
      have hdi : isDefaulted (some i') = false := by
        simp [isDefaulted, hi]
      have hdj : isDefaulted (some j') = false := by
        simp [isDefaulted, hj]
      simp only [rowToRecord, processRecord, hdi, hdj, Bool.false_eq_true,
        if_false, Option.getD_some]
      have hexp : expandRows cfg w' i' j' k1' k1' st' s.clock =
          [⟨w', i', j', k1', k1', st', s.clock⟩] := by
        unfold expandRows unrollRange
        rw [if_pos hu, Nat.min_self, Nat.max_self]
        have h1 : k1' + 1 - k1' = 1 := by omega
        rw [h1]
        simp only [List.range'_one, List.map_cons, List.map_nil]
      rw [hexp]
    rw [runRecords_cons_ok hstep]
    have hih := ih { s with rows := s.rows ++ [r] }
      (fun r' hr' => hprops r' (List.mem_cons_of_mem _ hr'))
    rw [hih]
    rw [List.append_assoc]
    rfl

theorem reparse_groups (cfg : Config) (hu : cfg.unroll = true) :
    ∀ (gs : List (Option SimDate × List CompletionRow)) (s : ConvState)
      (pv : Option (Option SimDate)),
      ((pv = none ∧ s.clock = none) ∨ pv = some s.clock) →
      groupsGood (dateVal s.clock) gs →
      ∃ c', runRecords cfg s (serializeGroups pv gs) =
        .ok ⟨c', s.registry, s.rows ++ gs.flatMap (fun g => g.2)⟩ := by
  intro gs
  induction gs with
  | nil =>
    intro s pv _ _
    refine ⟨s.clock, ?_⟩
    simp only [serializeGroups, List.flatMap_nil, List.append_nil, runRecords]
  | cons g rest ih =>
    intro s pv hpv hgood
    obtain ⟨d, rs⟩ := g
    obtain ⟨hne, hlt, hrows, hrest⟩ := hgood
    obtain ⟨dd, hdd⟩ : ∃ dd, d = some dd := by
      cases d with
      | none => exact absurd rfl hne
      | some dd => exact ⟨dd, rfl⟩
    subst hdd
    rw [serializeGroups]
    obtain ⟨clk, reg, rows0⟩ := s
    simp only at hpv hlt ⊢
    have htime : runRecords cfg ⟨clk, reg, rows0⟩ (timeRec pv (some dd)) =
        .ok ⟨some dd, reg, rows0⟩ := by
      rcases hpv with ⟨hpv, hclk⟩ | hpv
      · subst hpv
        subst hclk
        rfl
      · subst hpv
        cases clk with
        | none => rfl
        | some p =>
          simp only [dateVal] at hlt
          simp only [timeRec]
          by_cases hcont : dd.rd = p.rd + 1
          · rw [if_pos hcont]
            have h2 : p.rd + (dd.rd - p.rd) = dd.rd := by omega
            simp only [runRecords, processRecord, SimDate.addDays,
              List.sum_cons, List.sum_nil, Nat.add_zero, h2]
          · rw [if_neg hcont]
            simp only [runRecords, processRecord]
            rw [if_neg (by omega)]
    have hgroup := run_compdat_rows cfg hu rs ⟨some dd, reg, rows0⟩
      (fun r hr => hrows r hr)
    have hih := ih ⟨some dd, reg, rows0 ++ rs⟩ (some (some dd))
      (Or.inr rfl)
      (by simpa [dateVal] using hrest)
    obtain ⟨c', hc'⟩ := hih
    simp only at hc' hgroup
    refine ⟨c', ?_⟩
    simp only [runRecords_append, htime, hgroup, hc', List.flatMap_cons,
      List.append_assoc]

theorem datesOf_strict (rows : List CompletionRow)
    (hs : rows.Pairwise (fun a b => dateVal a.date ≤ dateVal b.date)) :
    (datesOf rows).Pairwise (fun a b => dateVal a < dateVal b) := by
  have h1 : (rows.map (fun r => r.date)).Pairwise
      (fun a b => dateVal a ≤ dateVal b) := List.pairwise_map.mpr hs
  have h2 : (datesOf rows).Pairwise (fun a b => dateVal a ≤ dateVal b) :=
    h1.sublist (firstSeen_sublist _)
  have h3 : (datesOf rows).Pairwise (fun a b => a ≠ b) :=
    firstSeen_nodup _
  exact (h2.and h3).imp
    (fun hab => Nat.lt_of_le_of_ne hab.1 (fun he => hab.2 (dateVal_inj he)))

theorem groupsGood_of_dates (rows : List CompletionRow)
    (hprop : ∀ r ∈ rows, r.i ≠ 0 ∧ r.j ≠ 0 ∧ r.k1 = r.k2) :
    ∀ (ds : List (Option SimDate)) (v : Nat),
      (∀ d ∈ ds, d ≠ none) → (∀ d ∈ ds, v < dateVal d) →
      ds.Pairwise (fun a b => dateVal a < dateVal b) →
      groupsGood v (ds.map (fun d => (d, rows.filter (fun r => r.date = d)))) := by
  intro ds
  induction ds with
  | nil => intro v _ _ _; trivial
  | cons d rest ih =>
    intro v hnn hv hp
    rw [List.map_cons]
    refine ⟨hnn d (List.mem_cons_self _ _), hv d (List.mem_cons_self _ _),
      ?_, ?_⟩
    · intro r hr
      have hd := List.mem_filter.mp hr
      have hdate : r.date = d := by simpa using hd.2
      obtain ⟨hi, hj, hk⟩ := hprop r hd.1
      exact ⟨hdate, hi, hj, hk⟩
    · refine ih (dateVal d) ?_ ?_ (List.pairwise_cons.mp hp).2
      · intro d' hd'
        exact hnn d' (List.mem_cons_of_mem _ hd')
      · intro d' hd'
        exact (List.pairwise_cons.mp hp).1 d' hd'

theorem deck2dfs_ok_table {deck : List Record} {cfg : Config}
    {rows : List CompletionRow} (hsd : cfg.startDate = none)
    (h : deck2dfs deck cfg = .ok [("COMPDAT", rows)]) :
    ∃ s, runRecords cfg initState deck = .ok s ∧
      rows = dropDupKeys s.rows ∧ rows ≠ [] := by
  unfold deck2dfs at h
  cases hrun : runRecords cfg initState deck <;> rw [hrun] at h
  case fatal => cases h
  case emptyAbort => simp at h
  case ok s =>
  refine ⟨s, rfl, ?_⟩
  injection h with hf
  simp only [finalize] at hf
  rw [applyStartDate_id cfg hsd] at hf
  split at hf
  · cases hf
  · rename_i hemp
    injection hf with hpair hrest
    injection hpair with _ hrows
    constructor
    · exact hrows.symm
    · rw [← hrows]
      intro hc
      rw [hc] at hemp
      simp at hemp

/-- C5: the round-trip contract — re-serializing a successfully assembled
completion table (all rows dated, locations explicit; the defaulted-vs-
zero and externally-joined-column losses are documented) and re-running
the conversion on the serialized record stream reproduces exactly the
same table: every row keeps its well name, spatial identity `(I, J, K1,
K2)`, status and date. -/
theorem C5_roundtrip (cfg : Config) (deck : List Record)
    (rows : List CompletionRow)
    (hu : cfg.unroll = true) (hsd : cfg.startDate = none)
    (h : deck2dfs deck cfg = .ok [("COMPDAT", rows)])
    (hdated : ∀ r ∈ rows, r.date ≠ none)
    (hij : ∀ r ∈ rows, r.i ≠ 0 ∧ r.j ≠ 0) :
    deck2dfs (df2ecl_compdat rows) cfg = .ok [("COMPDAT", rows)] := by
  obtain ⟨s, hrun, hrows, hne⟩ := deck2dfs_ok_table hsd h
  have hinv := runRecords_storeInv cfg deck initState s
    (initState_storeInv cfg) hrun
  have hsorted : rows.Pairwise (fun a b => dateVal a.date ≤ dateVal b.date) := by
    rw [hrows]
    exact hinv.2.1.sublist (dropDupKeys_sublist _)
  have hkey : rows.Pairwise (fun a b => rowKey a ≠ rowKey b) := by
    rw [hrows]
    exact dropDupKeys_keyNodup _
  have hk : ∀ r ∈ rows, r.k1 = r.k2 := by
    intro r hr
    rw [hrows] at hr
    exact hinv.2.2 hu r ((dropDupKeys_sublist _).mem hr)
  have hgg : groupsGood 0 (groupByDate rows) := by
    unfold groupByDate datesOf
    refine groupsGood_of_dates rows
      (fun r hr => ⟨(hij r hr).1, (hij r hr).2, hk r hr⟩) _ 0 ?_ ?_ ?_
    · intro d hd
      obtain ⟨r, hr, hrd⟩ := List.mem_map.mp (mem_firstSeen.mp hd)
      rw [← hrd]
      exact hdated r hr
    · intro d hd
      obtain ⟨r, hr, hrd⟩ := List.mem_map.mp (mem_firstSeen.mp hd)
      rw [← hrd]
      cases hrd2 : r.date with
      | none => exact absurd hrd2 (hdated r hr)
      | some dd => simp [dateVal]
    · exact datesOf_strict rows hsorted
  obtain ⟨c', hrun2⟩ := reparse_groups cfg hu (groupByDate rows) initState
    none (Or.inl ⟨rfl, rfl⟩) hgg
  have hflat : (groupByDate rows).flatMap (fun g => g.2) = rows := by
    unfold groupByDate datesOf
    rw [List.flatMap_map]
    simpa [Function.comp] using gather_filter rows hsorted
  rw [hflat] at hrun2
  simp only [initState, List.nil_append] at hrun2
  have hfin : finalize cfg ⟨c', [], rows⟩ = [("COMPDAT", rows)] := by
    simp only [finalize]
    rw [dropDupKeys_eq_self rows hkey, applyStartDate_id cfg hsd]
    cases rows with
    | nil => exact absurd rfl hne
    | cons a l => rfl
  unfold df2ecl_compdat deck2dfs initState
  rw [hrun2]
  exact congrArg Except.ok hfin

/-- Witness for C5: the round trip applied to the table assembled from the
`test_applywelopen_stringdeck` stream — serializing its five rows and
re-converting reproduces the table exactly. -/
theorem C5_roundtrip_witness :
    deck2dfs (df2ecl_compdat
      [⟨"OP1", 33, 110, 31, 31, "SHUT", some (SimDate.ofYMD 2001 5 1)⟩,
       ⟨"OP2", 66, 110, 31, 31, "OPEN", some (SimDate.ofYMD 2001 5 2)⟩,
       ⟨"OP1", 33, 110, 31, 31, "OPEN", some (SimDate.ofYMD 2001 5 2)⟩,
       ⟨"OP1", 33, 110, 31, 31, "OPEN", some (SimDate.ofYMD 2001 5 7)⟩,
       ⟨"OP2", 66, 110, 31, 31, "SHUT", some (SimDate.ofYMD 2001 5 7)⟩])
      defaultConfig =
    .ok [("COMPDAT",
      [⟨"OP1", 33, 110, 31, 31, "SHUT", some (SimDate.ofYMD 2001 5 1)⟩,
       ⟨"OP2", 66, 110, 31, 31, "OPEN", some (SimDate.ofYMD 2001 5 2)⟩,
       ⟨"OP1", 33, 110, 31, 31, "OPEN", some (SimDate.ofYMD 2001 5 2)⟩,
       ⟨"OP1", 33, 110, 31, 31, "OPEN", some (SimDate.ofYMD 2001 5 7)⟩,
       ⟨"OP2", 66, 110, 31, 31, "SHUT", some (SimDate.ofYMD 2001 5 7)⟩])] :=
  C5_roundtrip defaultConfig welopenDeck
    [⟨"OP1", 33, 110, 31, 31, "SHUT", some (SimDate.ofYMD 2001 5 1)⟩,
     ⟨"OP2", 66, 110, 31, 31, "OPEN", some (SimDate.ofYMD 2001 5 2)⟩,
     ⟨"OP1", 33, 110, 31, 31, "OPEN", some (SimDate.ofYMD 2001 5 2)⟩,
     ⟨"OP1", 33, 110, 31, 31, "OPEN", some (SimDate.ofYMD 2001 5 7)⟩,
     ⟨"OP2", 66, 110, 31, 31, "SHUT", some (SimDate.ofYMD 2001 5 7)⟩]
    rfl rfl rfl (by decide) (by decide)
